import Mathlib

/-!
# A verification development for the `tracery` generative-grammar engine

This file gives a shallow embedding, in Lean 4, of the Rust sources of the
`tracery` crate (the rule AST, the grammar with its per-symbol rule stacks,
the nom-based rule-string parser, the built-in modifier table, and the
expansion entry points), together with theorems about the embedded code.

Conventions used throughout:

* Rust `String`/`&str` are Lean `String` (a sequence of Unicode scalar
  values); byte-level operations (`str::len`, byte slicing) are embedded
  through `String.utf8ByteSize`/`Char.utf8Size`.
* `BTreeMap<K, V>` is embedded as an association list `List (K × V)`;
  iteration order of a `BTreeMap` is its sorted key order, so wherever the
  source iterates a map the embedding iterates the corresponding (sorted)
  entry list.  Lookup finds the first matching key.
* A `&mut` random source is embedded as an explicit state `RngState`
  holding an arbitrary draw sequence `seq : Nat → Nat` and a position;
  `SliceRandom::choose` over a non-empty slice of length `n` consumes one
  draw and picks index `seq idx % n` (uniform choice over the slice); on an
  empty slice it returns `none` without consuming a draw.
* Failing `unwrap()` calls (panics) are a distinguished result
  (`Res.panic` / `FRes.panic` / a `panic` outcome), separate from the
  crate's `Error` values.
* Recursion through the grammar (a rule expanding a key whose rules expand
  further keys) is not structurally bounded in the source; the embedding
  makes those recursions total with an explicit `fuel : Nat`, with a
  distinguished `fuelOut` result that a run of the Rust code never exhibits
  for terminating inputs (it corresponds to divergence).
-/

/-- Embeds `enum Error` from src/error.rs (the `tracery_json` feature's
`JsonError` variant included). -/
inductive Err where
  | parseError (msg : String)
  | missingKeyError (key : String)
  | jsonError (msg : String)
deriving DecidableEq, Repr

mutual

/-- Embeds the rule AST of src/node.rs, src/tag.rs and src/rule.rs:
`Node` is `Text(String)` or `Tag(Tag)`; a `Tag` has a key, an action map
`actions : BTreeMap<String, Rule>` (embedded as its sorted entry list) and
a modifier-name list; a `Rule` is a node sequence. -/
inductive Node where
  | text (s : String) : Node
  | tag (t : Tag) : Node

/-- See `Node`.  Embeds `struct Tag` (src/tag.rs lines 5-10). -/
inductive Tag where
  | mk (key : String) (actions : List (String × Rule)) (modifiers : List String) : Tag

/-- See `Node`.  Embeds `struct Rule(Vec<Node>)` (src/rule.rs). -/
inductive Rule where
  | mk (nodes : List Node) : Rule

end

/-- Projection for the embedded `Tag.key`. -/
def Tag.key : Tag → String
  | .mk k _ _ => k

/-- Projection for the embedded `Tag.actions`. -/
def Tag.actions : Tag → List (String × Rule)
  | .mk _ a _ => a

/-- Projection for the embedded `Tag.modifiers`. -/
def Tag.modifiers : Tag → List String
  | .mk _ _ m => m

/-- Projection for the node list of a `Rule`. -/
def Rule.nodes : Rule → List Node
  | .mk ns => ns

/-- A rule stack for one key: `Vec<Vec<Rule>>` in src/grammar.rs, the top
frame being the `Vec`'s last element. -/
abbrev RuleStack := List (List Rule)

/-- Embeds `struct Grammar` (src/grammar.rs lines 17-22): the symbol map
`BTreeMap<String, Vec<Vec<Rule>>>`, the default rule name, and the modifier
registry `BTreeMap<String, Rc<dyn Fn(&str) -> String>>`. -/
structure Grammar where
  map : List (String × RuleStack)
  default_rule : String
  modifier_registry : List (String × (String → String))

/-- First-match association-list lookup: `BTreeMap::get`. -/
def lookupA {α : Type} : List (String × α) → String → Option α
  | [], _ => none
  | (k', v) :: t, k => if k' = k then some v else lookupA t k

/-- Embeds the `Entry`-based update of `Grammar::push_rule`
(src/grammar.rs lines 29-43): if the key is occupied, append the new frame
to its stack (a `Vec::push` appends at the end, the top); if vacant, bind
the key to a one-frame stack. -/
def pushA (frame : List Rule) : List (String × RuleStack) → String → List (String × RuleStack)
  | [], k => [(k, [frame])]
  | (k', s) :: t, k => if k' = k then (k', s ++ [frame]) :: t else (k', s) :: pushA frame t k

/-- Embeds the `Entry`-based update of `Grammar::pop_rule`
(src/grammar.rs lines 45-57): on an occupied key, remove the whole entry
when the stack holds fewer than two frames, otherwise pop the top (last)
frame; a vacant key is untouched. -/
def popA : List (String × RuleStack) → String → List (String × RuleStack)
  | [], _ => []
  | (k', s) :: t, k =>
    if k' = k then (if s.length < 2 then t else (k', s.dropLast) :: t)
    else (k', s) :: popA t k

/-- Embeds `Grammar::push_rule` (src/grammar.rs lines 29-43): the pushed
body becomes a single-alternative frame `vec![Rule::new(vec![Node::from(rule_str)])]`. -/
def Grammar.push_rule (g : Grammar) (key : String) (rule_str : String) : Grammar :=
  { g with map := pushA [Rule.mk [Node.text rule_str]] g.map key }

/-- Embeds `Grammar::pop_rule` (src/grammar.rs lines 45-57). -/
def Grammar.pop_rule (g : Grammar) (key : String) : Grammar :=
  { g with map := popA g.map key }

/-- Embeds `Grammar::get_rule` (src/grammar.rs lines 59-62):
`self.map.get(key).and_then(|stack| stack.last())`. -/
def Grammar.get_rule (g : Grammar) (key : String) : Option (List Rule) :=
  (lookupA g.map key).bind List.getLast?

/-- Embeds `Grammar::get_modifier` (src/grammar.rs lines 25-27). -/
def Grammar.get_modifier (g : Grammar) (m : String) : Option (String → String) :=
  lookupA g.modifier_registry m

/-- The random source: an arbitrary draw sequence and the current draw
position.  Quantifying over `seq` quantifies over every random source. -/
structure RngState where
  seq : Nat → Nat
  idx : Nat

/-- Embeds `SliceRandom::choose`: `None` on an empty slice, otherwise a
uniform index (one draw, taken modulo the length). -/
def chooseL {α : Type} (xs : List α) (rng : RngState) : Option α × RngState :=
  if xs.isEmpty then (none, rng)
  else (xs.get? (rng.seq rng.idx % xs.length), { rng with idx := rng.idx + 1 })

/-- Result of a mutating expansion step: the produced value, the grammar
after the step's side effects, and the advanced random source.  `err`
carries a crate `Error`; `panic` marks a failing `unwrap()`; `fuelOut` is
the embedding's divergence marker. -/
inductive Res (α : Type) where
  | val (a : α) (g : Grammar) (rng : RngState)
  | err (e : Err) (g : Grammar) (rng : RngState)
  | panic (g : Grammar) (rng : RngState)
  | fuelOut (g : Grammar) (rng : RngState)

/-- The part of a `Res` that survives when the grammar it ran on is
discarded (used by `Grammar.flatten`, which drops its private clone). -/
inductive Outcome where
  | ok (s : String)
  | err (e : Err)
  | panic
  | fuelOut
deriving DecidableEq

/-- Outcome projection of a `Res`. -/
def Res.outcome : Res String → Outcome
  | .val a _ _ => .ok a
  | .err e _ _ => .err e
  | .panic _ _ => .panic
  | .fuelOut _ _ => .fuelOut

/-- Random-source projection of a `Res`. -/
def Res.rngOf {α : Type} : Res α → RngState
  | .val _ _ rng => rng
  | .err _ _ rng => rng
  | .panic _ rng => rng
  | .fuelOut _ rng => rng

/-- Recognizes the POP sentinel structurally: a rule whose only node is
`Text("POP")` (spec section 4.4; the sentinel is interpreted by the
expander, not the parser). -/
def isPopRule : Rule → Bool
  | .mk [Node.text s] => s == "POP"
  | _ => false

/-- Embeds `Tag::apply_modifiers` (src/tag.rs lines 48-56): apply each of
the tag's modifier names in order, skipping names the grammar's registry
does not define. -/
def Tag.apply_modifiers (t : Tag) (s : String) (g : Grammar) : String :=
  t.modifiers.foldl
    (fun acc m =>
      match g.get_modifier m with
      | some f => f acc
      | none => acc) s

/-- Modelled from the spec: the `impl Execute for Rule/Node/Tag` expander
is absent from src/ (src/execute.rs declares only the trait `Execute`, and
`Grammar::execute` at src/grammar.rs line 263 calls `rule.execute(self, rng)`);
this definition models the action-processing step of spec section 4.4
"Flatten(Tag t)" step 1, over the `Tag.actions` entry list (a
`BTreeMap<String, Rule>`, so every action is labeled and the iteration
order is ascending label order).  `recur` is the expander for the next
lower fuel level.  A POP-sentinel action pops the label's stack; any other
action expands its body and pushes the result onto the label's stack. -/
def execActionsWith (recur : Rule → Grammar → RngState → Res String) :
    List (String × Rule) → Grammar → RngState → Res Unit
  | [], g, rng => .val () g rng
  | (label, r) :: rest, g, rng =>
    if isPopRule r then execActionsWith recur rest (g.pop_rule label) rng
    else
      match recur r g rng with
      | .val body g' rng' => execActionsWith recur rest (g'.push_rule label body) rng'
      | .err e g' rng' => .err e g' rng'
      | .panic g' rng' => .panic g' rng'
      | .fuelOut g' rng' => .fuelOut g' rng'

/-- Modelled from the spec: steps 1 and 3-5 of spec section 4.4
"Flatten(Tag t)", run with persistent side effects (the `execute` mode):
execute the actions in order, look the key up in the grammar (missing key
is `MissingKeyError(key)`), uniformly choose an alternative from the top
frame (the source's `choose(rng).unwrap()`, a panic on an empty frame),
expand it, and apply the tag's modifiers via the grammar's registry.
The source `Tag` type has no optional key (src/tag.rs line 7), so the
spec's "key absent" case (step 2) does not arise. -/
def execTagWith (recur : Rule → Grammar → RngState → Res String)
    (t : Tag) (g : Grammar) (rng : RngState) : Res String :=
  match execActionsWith recur t.actions g rng with
  | .val _ g1 rng1 =>
    match g1.get_rule t.key with
    | none => .err (.missingKeyError t.key) g1 rng1
    | some frame =>
      match chooseL frame rng1 with
      | (none, rng2) => .panic g1 rng2
      | (some choice, rng2) =>
        match recur choice g1 rng2 with
        | .val s g2 rng3 => .val (Tag.apply_modifiers t s g2) g2 rng3
        | .err e g2 rng3 => .err e g2 rng3
        | .panic g2 rng3 => .panic g2 rng3
        | .fuelOut g2 rng3 => .fuelOut g2 rng3
  | .err e g1 rng1 => .err e g1 rng1
  | .panic g1 rng1 => .panic g1 rng1
  | .fuelOut g1 rng1 => .fuelOut g1 rng1

/-- Modelled from the spec: node-sequence expansion — concatenate the
expansions of the nodes in order (spec section 4.4 "Flatten(rule)" /
"Flatten(Text(s))"). -/
def execNodesWith (recur : Rule → Grammar → RngState → Res String) :
    List Node → Grammar → RngState → Res String
  | [], g, rng => .val "" g rng
  | n :: rest, g, rng =>
    match
      (match n with
       | .text s => .val s g rng
       | .tag t => execTagWith recur t g rng : Res String)
    with
    | .val s g1 rng1 =>
      match execNodesWith recur rest g1 rng1 with
      | .val s2 g2 rng2 => .val (s ++ s2) g2 rng2
      | .err e g2 rng2 => .err e g2 rng2
      | .panic g2 rng2 => .panic g2 rng2
      | .fuelOut g2 rng2 => .fuelOut g2 rng2
    | .err e g1 rng1 => .err e g1 rng1
    | .panic g1 rng1 => .panic g1 rng1
    | .fuelOut g1 rng1 => .fuelOut g1 rng1

/-- Modelled from the spec: the fuel-indexed expander for a `Rule` in
`execute` mode (the missing `impl Execute for Rule`).  Each level of rule
nesting consumes one unit of fuel. -/
def execRule : Nat → Rule → Grammar → RngState → Res String
  | 0, _, g, rng => .fuelOut g rng
  | fuel + 1, r, g, rng => execNodesWith (execRule fuel) r.nodes g rng

/-- Embeds `Grammar::execute` (src/grammar.rs lines 255-264): look the
starting key up (absent key is `MissingKeyError(key)` with the key itself
as payload), take the top frame (`rules.last().unwrap()`, a panic on an
empty stack), uniformly choose an alternative (`choose(rng).unwrap()`, a
panic when the frame holds no alternatives), and run the chosen rule with
persistent side effects. -/
def Grammar.execute (fuel : Nat) (g : Grammar) (key : String) (rng : RngState) : Res String :=
  match lookupA g.map key with
  | none => .err (.missingKeyError key) g rng
  | some stack =>
    match stack.getLast? with
    | none => .panic g rng
    | some frame =>
      match chooseL frame rng with
      | (none, rng') => .panic g rng'
      | (some rule, rng') => execRule fuel rule g rng'

/-- Embeds `Grammar::flatten` (src/grammar.rs lines 186-188):
`self.clone().execute(&self.default_rule, rng)`.  The receiver is `&self`:
`execute` runs on a private clone whose final state is discarded, while
the caller's grammar — returned here as the second component, embedding
the `&self` borrow — is untouched.  The random source is the caller's
`&mut R`, so its final state survives. -/
def Grammar.flatten (fuel : Nat) (g : Grammar) (rng : RngState) :
    (Outcome × RngState) × Grammar :=
  let r := Grammar.execute fuel g g.default_rule rng
  ((r.outcome, r.rngOf), g)

/-- The `overrides : BTreeMap<String, String>` map threaded through the
source's `Flatten` impls, as its sorted entry list. -/
abbrev Ov := List (String × String)

/-- Strict lexicographic order on character lists by scalar value; for
UTF-8 strings this coincides with Rust's byte-wise `Ord` on `String`, the
order a `BTreeMap<String, _>` keeps its keys in. -/
def charListLt : List Char → List Char → Bool
  | _, [] => false
  | [], _ :: _ => true
  | a :: as, b :: bs =>
    if a.toNat < b.toNat then true
    else if b.toNat < a.toNat then false
    else charListLt as bs

/-- String-level lexicographic order (see `charListLt`). -/
def strLt (a b : String) : Bool := charListLt a.data b.data

/-- `BTreeMap::insert` on a sorted entry list: replace an existing key's
value or insert the new entry at its sorted position. -/
def btreeInsert {α : Type} : List (String × α) → String → α → List (String × α)
  | [], k, v => [(k, v)]
  | (k', v') :: t, k, v =>
    if k = k' then (k, v) :: t
    else if strLt k k' then (k, v) :: (k', v') :: t
    else (k', v') :: btreeInsert t k v

/-- `collect::<BTreeMap<_, _>>()` over an iterator of pairs: repeated
`BTreeMap::insert`, so a later pair with an already-seen key replaces the
earlier one.  Used by the parser's `_parse_tag`
(src/parser.rs line 41). -/
def btreeOfList {α : Type} (xs : List (String × α)) : List (String × α) :=
  xs.foldl (fun m p => btreeInsert m p.1 p.2) []

/-- Result of a non-mutating (`Flatten`-trait) expansion step: the value,
the threaded `overrides` map, and the advanced random source.  The grammar
is not threaded: the source's `Flatten` impls take `&Grammar` and never
mutate it. -/
inductive FRes (α : Type) where
  | val (a : α) (ov : Ov) (rng : RngState)
  | err (e : Err) (ov : Ov) (rng : RngState)
  | panic (ov : Ov) (rng : RngState)
  | fuelOut (ov : Ov) (rng : RngState)

/-- Embeds `Tag::get_rule` (src/tag.rs lines 25-44): prefer the
`overrides` entry for the key; otherwise uniformly choose from the
grammar's top frame (`rules.choose(rng).unwrap()`, a panic on an empty
frame) and flatten the choice; otherwise
`Err(MissingKeyError(format!("Could not find key {}", self.key)))`.
`recur` is the rule flattener for the next lower fuel level. -/
def Tag.get_ruleW (recur : Rule → Ov → RngState → FRes String)
    (g : Grammar) (t : Tag) (ov : Ov) (rng : RngState) : FRes String :=
  match lookupA ov t.key with
  | some rule => .val rule ov rng
  | none =>
    match g.get_rule t.key with
    | some rules =>
      match chooseL rules rng with
      | (none, rng') => .panic ov rng'
      | (some choice, rng') => recur choice ov rng'
    | none => .err (.missingKeyError ("Could not find key " ++ t.key)) ov rng

/-- Embeds the action loop of `impl Flatten for Tag` (src/tag.rs lines
78-81): flatten each action's rule in map-iteration order, collecting the
results into a fresh `BTreeMap` (`acc`); errors abort the whole
expansion. -/
def flattenActionsW (recur : Rule → Ov → RngState → FRes String) :
    List (String × Rule) → List (String × String) → Ov → RngState →
      FRes (List (String × String))
  | [], acc, ov, rng => .val acc ov rng
  | (label, r) :: rest, acc, ov, rng =>
    match recur r ov rng with
    | .val s ov1 rng1 => flattenActionsW recur rest (btreeInsert acc label s) ov1 rng1
    | .err e ov1 rng1 => .err e ov1 rng1
    | .panic ov1 rng1 => .panic ov1 rng1
    | .fuelOut ov1 rng1 => .fuelOut ov1 rng1

/-- Embeds `impl Flatten for Tag` (src/tag.rs lines 71-101): flatten the
actions, clone the overrides and merge the action results into the clone,
resolve the key with `Tag::get_rule` against the merged clone, and apply
the modifiers.  The merged clone goes out of scope when the tag is done
(the source shadows `overrides` with the clone), so the caller's overrides
map is the one left by the action loop. -/
def Tag.flattenW (recur : Rule → Ov → RngState → FRes String)
    (g : Grammar) (t : Tag) (ov : Ov) (rng : RngState) : FRes String :=
  match flattenActionsW recur t.actions [] ov rng with
  | .val m ov1 rng1 =>
    let ovLocal := m.foldl (fun o (p : String × String) => btreeInsert o p.1 p.2) ov1
    match Tag.get_ruleW recur g t ovLocal rng1 with
    | .val choice _ rng2 => .val (Tag.apply_modifiers t choice g) ov1 rng2
    | .err e _ rng2 => .err e ov1 rng2
    | .panic _ rng2 => .panic ov1 rng2
    | .fuelOut _ rng2 => .fuelOut ov1 rng2
  | .err e ov1 rng1 => .err e ov1 rng1
  | .panic ov1 rng1 => .panic ov1 rng1
  | .fuelOut ov1 rng1 => .fuelOut ov1 rng1

/-- Embeds the node traversal of `impl Flatten for Rule`
(src/rule.rs lines 36-49) together with `impl Flatten for Node`
(src/node.rs lines 50-61) and `impl Flatten for String`
(src/flatten.rs lines 17-21): collect each node's flattened string in
order (`Text` flattens to itself), aborting on the first error. -/
def flattenNodesW (recur : Rule → Ov → RngState → FRes String) (g : Grammar) :
    List Node → Ov → RngState → FRes (List String)
  | [], ov, rng => .val [] ov rng
  | n :: rest, ov, rng =>
    match
      (match n with
       | .text s => .val s ov rng
       | .tag t => Tag.flattenW recur g t ov rng : FRes String)
    with
    | .val s ov1 rng1 =>
      match flattenNodesW recur g rest ov1 rng1 with
      | .val parts ov2 rng2 => .val (s :: parts) ov2 rng2
      | .err e ov2 rng2 => .err e ov2 rng2
      | .panic ov2 rng2 => .panic ov2 rng2
      | .fuelOut ov2 rng2 => .fuelOut ov2 rng2
    | .err e ov1 rng1 => .err e ov1 rng1
    | .panic ov1 rng1 => .panic ov1 rng1
    | .fuelOut ov1 rng1 => .fuelOut ov1 rng1

/-- Embeds `impl Flatten for Rule` (src/rule.rs lines 36-49): flatten the
nodes and `join("")` the parts.  Fuel-indexed: each level of rule nesting
reached through `Tag::get_rule` consumes one unit. -/
def Rule.flattenF : Nat → Grammar → Rule → Ov → RngState → FRes String
  | 0, _, _, ov, rng => .fuelOut ov rng
  | fuel + 1, g, r, ov, rng =>
    match flattenNodesW (Rule.flattenF fuel g) g r.nodes ov rng with
    | .val parts ov1 rng1 => .val (parts.foldl (· ++ ·) "") ov1 rng1
    | .err e ov1 rng1 => .err e ov1 rng1
    | .panic ov1 rng1 => .panic ov1 rng1
    | .fuelOut ov1 rng1 => .fuelOut ov1 rng1

/-- Models Rust's `char::to_uppercase` (standard library, external to this
repository), restricted to the character range the source and its tests
exercise: ASCII lowercase letters map to their uppercase letter, `ß` maps
to `SS` (the one multi-character expansion the source's tests cover), and
every other character maps to itself. -/
def charToUppercase (c : Char) : List Char :=
  if c = 'ß' then ['S', 'S']
  else if 97 ≤ c.toNat ∧ c.toNat ≤ 122 then [Char.ofNat (c.toNat - 32)]
  else [c]

/-- Embeds the `capitalize` closure (src/modifiers.rs lines 8-16):
uppercase the first character (possibly into several characters) and keep
the remaining characters unchanged; the empty string maps to itself. -/
def capitalizeMod (s : String) : String :=
  match s.data with
  | [] => ""
  | c :: rest => String.mk (charToUppercase c ++ rest)

/-- Models `char::is_whitespace` (Rust standard library).  Lean's
`Char.isWhitespace` covers the ASCII whitespace characters, which are the
only whitespace the source's tests and the claims exercise. -/
def isWS (c : Char) : Bool := c.isWhitespace

/-- Models `split_preserve::Token` (external `split_preserve` crate): a
maximal whitespace run or a maximal non-whitespace word. -/
inductive Token where
  | ws (s : String)
  | other (s : String)

/-- The underlying string of a `Token`. -/
def tokStr : Token → String
  | .ws s => s
  | .other s => s

/-- Whether a `Token` is a whitespace run. -/
def isWsTok : Token → Bool
  | .ws _ => true
  | .other _ => false

/-- Models `SplitPreserveWS::new` (external `split_preserve` crate): split
a character list into alternating maximal runs of whitespace and
non-whitespace.  Structurally recursive on a fuel that the entry point
sets to `length + 1`, which always suffices because every token consumes
at least one character. -/
def tokenizeGo : Nat → List Char → List Token
  | 0, _ => []
  | _, [] => []
  | fuel + 1, c :: cs =>
    let run := cs.takeWhile fun d => isWS d == isWS c
    let rest := cs.dropWhile fun d => isWS d == isWS c
    (if isWS c then Token.ws (String.mk (c :: run)) else Token.other (String.mk (c :: run)))
      :: tokenizeGo fuel rest

/-- String-level entry point of the whitespace-preserving tokenizer. -/
def tokenize (s : String) : List Token := tokenizeGo (s.data.length + 1) s.data

/-- Embeds the `capitalizeAll` closure (src/modifiers.rs lines 21-27):
capitalize each whitespace-separated word, keeping every whitespace run
verbatim. -/
def capitalizeAllMod (s : String) : String :=
  ((tokenize s).map fun t =>
    match t with
    | .ws w => w
    | .other w => capitalizeMod w).foldl (· ++ ·) ""

/-- Embeds the `inQuotes` closure (src/modifiers.rs lines 28-31):
`format!("\"{}\"", s)`. -/
def inQuotesMod (s : String) : String := "\"" ++ s ++ "\""

/-- `str::ends_with(char)`: whether the last character is `c`. -/
def endsWithChar (s : String) (c : Char) : Bool := s.data.getLast? == some c

/-- Embeds the `comma` closure (src/modifiers.rs lines 32-41): keep a
string already ending in `,`, `.`, `!` or `?`, otherwise append `,`. -/
def commaMod (s : String) : String :=
  if endsWithChar s ',' || endsWithChar s '.' || endsWithChar s '!' || endsWithChar s '?'
  then s else s ++ ","

/-- Embeds the `is_vowel` closure (src/modifiers.rs lines 46-51). -/
def isVowel (c : Char) : Bool :=
  match c with
  | 'a' | 'e' | 'i' | 'o' | 'u' => true
  | _ => false

/-- Modelled from the spec: the `s` modifier delegates to
`inflector::string::pluralize::to_plural` (an external crate, not part of
this repository); modelled from the rules of spec section 4.2: irregulars
`goose`/`ox`/`index`, terminal consonant+`y` becomes `ies`, terminal `s`,
`x`, `z`, `ch`, `sh` append `es`, anything else appends `s`, and the empty
string pluralizes to `"s"`. -/
def sMod (s : String) : String :=
  if s = "goose" then "geese"
  else if s = "ox" then "oxen"
  else if s = "index" then "indices"
  else
    match s.data.getLast? with
    | none => "s"
    | some 'y' =>
      match s.data.dropLast.getLast? with
      | some c => if isVowel c then s ++ "s" else String.mk s.data.dropLast ++ "ies"
      | none => s ++ "s"
    | some c =>
      if c = 's' || c = 'x' || c = 'z' then s ++ "es"
      else if s.endsWith "ch" || s.endsWith "sh" then s ++ "es"
      else s ++ "s"

/-- Embeds the `a` closure (src/modifiers.rs lines 52-64): prepend `an`
when the first character is a vowel, else `a`, joined by one space. -/
def aMod (s : String) : String :=
  (match s.data.head?.map isVowel with
   | some true => "an"
   | _ => "a") ++ " " ++ s

/-- Embeds the `get_neg` closure (src/modifiers.rs lines 66-74) exactly as
written: `if n > s.len() { None } else { s.chars().nth(s.len() - n) }`.
Note that `s.len()` is the UTF-8 byte length while `chars().nth` indexes
characters, so for non-ASCII strings the offset mixes the two units. -/
def get_neg (s : String) (n : Nat) : Option Char :=
  if n > s.utf8ByteSize then none else s.data.get? (s.utf8ByteSize - n)

/-- Models the byte slice `&s[..k]`: the characters whose UTF-8 bytes fit
in the first `k` bytes.  (Rust panics when `k` is not a character
boundary; the source only slices at `s.len() - 1` after observing a
one-byte final character, where the slice is a boundary.) -/
def takeBytesGo : List Char → Nat → List Char
  | [], _ => []
  | c :: cs, k => if c.utf8Size ≤ k then c :: takeBytesGo cs (k - c.utf8Size) else []

/-- The past-tense transformation the `ed` closure applies to the first
word (src/modifiers.rs lines 92-105): a trailing `y` after a vowel gets
`ed`, a trailing `y` otherwise is replaced (by byte slicing) with `ied`, a
trailing `e` gets `d`, and anything else — including every word whose
byte length differs from its character count, for which `get_neg` returns
`None` — gets `ed`. -/
def edWord (w : String) : String :=
  match get_neg w 1 with
  | some 'y' =>
    match (get_neg w 2).map isVowel with
    | some true => w ++ "ed"
    | _ => String.mk (takeBytesGo w.data (w.utf8ByteSize - 1)) ++ "ied"
  | some 'e' => w ++ "d"
  | _ => w ++ "ed"

/-- Embeds the `ed` closure (src/modifiers.rs lines 75-118): preserve the
leading whitespace runs, apply `edWord` to the first word (an absent first
word contributes the empty string), and append the remaining tokens
verbatim. -/
def edMod (s : String) : String :=
  let toks := tokenize s
  let pre := ((toks.takeWhile isWsTok).map tokStr).foldl (· ++ ·) ""
  match toks.dropWhile isWsTok with
  | [] => pre ++ "" ++ ""
  | t :: rest =>
    pre ++
      (match t with
       | .other w => edWord w
       | .ws _ => "") ++
      ((rest.map tokStr).foldl (· ++ ·) "")

/-- Embeds `get_default_modifiers` (src/modifiers.rs lines 6-120), in the
source's insertion order (a `BTreeMap`'s lookup behavior does not depend
on insertion order, and no two inserted names collide). -/
def get_default_modifiers : List (String × (String → String)) :=
  [("capitalize", capitalizeMod),
   ("capitalizeAll", capitalizeAllMod),
   ("inQuotes", inQuotesMod),
   ("comma", commaMod),
   ("s", sMod),
   ("a", aMod),
   ("ed", edMod)]

/-!
### The nom-based parser (src/parser.rs)

The source parser is written with `nom`'s macro combinators over `&str`.
The embedding models them with complete-input semantics: `take_until!`
fails with `Err::Error` at the current input when the pattern does not
occur, and `alt!` moves to its next branch exactly on `Err::Error` — the
reading under which the parser's own test suite
(src/parser.rs lines 115-334) passes.  `Err::Incomplete` and
`Err::Failure` are kept as result shapes because `parse_str`/`parse_tag`
match on them, but no modelled combinator produces them.  Positions are
the remaining input (`nom` errors carry the input slice where they
occurred).
-/

/-- A nom `IResult`: remaining input and value, or one of nom's three
error shapes. -/
inductive PRes (α : Type) where
  | ok (rest : List Char) (a : α)
  | error (at_ : List Char)
  | incomplete
  | failure (at_ : List Char)

/-- Sequencing of parse results (the implicit chaining of `do_parse!`). -/
def PRes.andThen {α β : Type} (r : PRes α) (f : List Char → α → PRes β) : PRes β :=
  match r with
  | .ok rest a => f rest a
  | .error j => .error j
  | .incomplete => .incomplete
  | .failure j => .failure j

/-- `alt!`: try the next branch exactly when the first fails with
`Err::Error`. -/
def altP {α : Type} (r : PRes α) (f : Unit → PRes α) : PRes α :=
  match r with
  | .error _ => f ()
  | x => x

/-- `tag!`: match a literal. -/
def litP (lit : List Char) (i : List Char) : PRes (List Char) :=
  if lit.isPrefixOf i then .ok (i.drop lit.length) lit else .error i

/-- Split the input at the first occurrence of `pat`: the consumed prefix
and the rest starting with `pat`; `none` when `pat` does not occur. -/
def findUntil (pat : List Char) : List Char → Option (List Char × List Char)
  | [] => if pat.isPrefixOf [] then some ([], []) else none
  | c :: cs =>
    if pat.isPrefixOf (c :: cs) then some ([], c :: cs)
    else (findUntil pat cs).map fun pr => (c :: pr.1, pr.2)

/-- `take_until!` (complete): consume up to, not including, the first
occurrence of `pat`; `Err::Error` when `pat` is absent. -/
def takeUntilP (pat : List Char) (i : List Char) : PRes (List Char) :=
  match findUntil pat i with
  | some (pre, rest) => .ok rest pre
  | none => .error i

/-- `is_not!`: take one or more characters outside `set`; `Err::Error`
when the first character is already in `set` (or the input is empty). -/
def isNotP (set : List Char) (i : List Char) : PRes (List Char) :=
  let tk := i.takeWhile fun c => ¬ set.contains c
  if tk.isEmpty then .error i else .ok (i.drop tk.length) tk

/-- `rest_s` (src/parser.rs lines 11-13): always succeed, consuming the
whole input. -/
def restP (i : List Char) : PRes (List Char) := .ok [] i

/-- Embeds `action` (src/parser.rs lines 15-26): `[`, a label up to `:`,
`:`, a content slice up to `]` parsed recursively as a rule
(`map_res!(take_until!("]"), Rule::parse)`), then `]`.  `ruleParse` is the
rule parser for the next lower fuel level. -/
def actionW (ruleParse : List Char → Except Err Rule) (i : List Char) :
    PRes (String × Rule) :=
  (litP ['['] i).andThen fun i1 _ =>
    (takeUntilP [':'] i1).andThen fun i2 label =>
      (litP [':'] i2).andThen fun i3 _ =>
        (takeUntilP [']'] i3).andThen fun i4 content =>
          match ruleParse content with
          | .ok r => (litP [']'] i4).andThen fun i5 _ => .ok i5 (String.mk label, r)
          | .error _ => .error i3

/-- Embeds `modifier` (src/parser.rs lines 28-32): `.`, then everything
up to the next `.` or, failing that, the next `#`. -/
def modifierP (i : List Char) : PRes (List Char) :=
  (litP ['.'] i).andThen fun i1 _ =>
    altP (takeUntilP ['.'] i1) fun _ => takeUntilP ['#'] i1

/-- `many0!`: repeat a parser until it fails with `Err::Error`,
accumulating the values.  `loopFuel` bounds the iteration count (both
modelled inner parsers consume at least one character on success, so
`input length + 1` iterations always suffice); a non-consuming success
also stops, standing in for nom's `Many0` error, which no reachable input
triggers here. -/
def many0P {α : Type} (p : List Char → PRes α) : Nat → List Char → List Char × List α
  | 0, i => (i, [])
  | n + 1, i =>
    match p i with
    | .ok rest v =>
      if rest.length < i.length then
        let (r2, vs) := many0P p n rest
        (r2, v :: vs)
      else (i, [])
    | _ => (i, [])

/-- Embeds `_parse_tag` (src/parser.rs lines 34-45): `#`, any number of
actions collected into a `BTreeMap` (so a repeated label keeps only the
last action, and iteration order is ascending label order), a non-empty
key free of `.` and `#`, any number of modifiers, and a closing `#`. -/
def tagW (ruleParse : List Char → Except Err Rule) (i : List Char) : PRes Tag :=
  (litP ['#'] i).andThen fun i1 _ =>
    let (i2, acts) := many0P (actionW ruleParse) (i1.length + 1) i1
    (isNotP ['.', '#'] i2).andThen fun i3 key =>
      let (i4, mods) := many0P modifierP (i3.length + 1) i3
      (litP ['#'] i4).andThen fun i5 _ =>
        .ok i5 (Tag.mk (String.mk key) (btreeOfList acts) (mods.map String.mk))

/-- Embeds `text_as_node` (src/parser.rs lines 54-59): text up to the
next `#`, or all remaining input. -/
def textAsNodeP (i : List Char) : PRes Node :=
  (altP (takeUntilP ['#'] i) fun _ => restP i).andThen fun rest v =>
    .ok rest (Node.text (String.mk v))

/-- Embeds `tag_or_text` with `tag_as_node` (src/parser.rs lines 47-60):
a tag node, or failing that a text node. -/
def tagOrTextW (ruleParse : List Char → Except Err Rule) (i : List Char) : PRes Node :=
  altP ((tagW ruleParse i).andThen fun rest t => .ok rest (Node.tag t)) fun _ =>
    textAsNodeP i

/-- Embeds the loop of `_parse_str` (src/parser.rs lines 63-75): parse a
node, push it, stop once the remaining input is empty.  `loopFuel` bounds
the iterations; an input on which `tag_or_text` succeeds without
consuming (e.g. a lone malformed `#a`) makes the source loop forever, and
exhausts the fuel here instead. -/
def parseNodesW (ruleParse : List Char → Except Err Rule) :
    Nat → List Char → PRes (List Node)
  | 0, i => .error i
  | n + 1, i =>
    (tagOrTextW ruleParse i).andThen fun rest nd =>
      if rest.isEmpty then .ok [] [nd]
      else (parseNodesW ruleParse n rest).andThen fun rest2 nds => .ok rest2 (nd :: nds)

/-- Embeds `parse_str` (src/parser.rs lines 95-112) with the fuel for the
nested `Rule::parse` recursion inside actions.  Nested contents are
strictly shorter than their enclosing input, so the entry point's
`length + 1` fuel never runs out on inputs the source parses; fuel
exhaustion reports the embedding-artifact message.  (The source also
prints each parsed string with `println!`, a side effect with no result.) -/
def parseStrF : Nat → List Char → Except Err Rule
  | 0, _ => .error (.parseError "embedding fuel exhausted")
  | f + 1, i =>
    match parseNodesW (fun c => parseStrF f c) (i.length + 1) i with
    | .ok rest nodes =>
      if rest.isEmpty then .ok (Rule.mk nodes)
      else .error (.parseError ("Did not parse all of rule; leftover was " ++ String.mk rest))
    | .error j => .error (.parseError ("Parse error: " ++ String.mk j))
    | .incomplete => .error (.parseError "Rule was incomplete")
    | .failure j => .error (.parseError ("Parse failure: " ++ String.mk j))

/-- String-level entry point for `parse_str` / `Rule::parse`. -/
def parse_str (s : String) : Except Err Rule :=
  parseStrF (s.data.length + 1) s.data

/-- Embeds `parse_tag` (src/parser.rs lines 77-93). -/
def parse_tag (s : String) : Except Err Tag :=
  match tagW (fun c => parseStrF (s.data.length + 1) c) s.data with
  | .ok rest t =>
    if rest.isEmpty then .ok t
    else .error (.parseError ("Did not parse all of tag; leftover was " ++ String.mk rest))
  | .error j => .error (.parseError ("Parse error: " ++ String.mk j))
  | .incomplete => .error (.parseError "Tag was incomplete")
  | .failure j => .error (.parseError ("Parse failure: " ++ String.mk j))

/-- Embeds `Grammar::from_map` (src/grammar.rs lines 307-329): parse every
rule string of every key (the first `ParseError` aborts construction),
bind each key to the one-frame stack holding its parsed rule list, and
take `"origin"` as the default rule and the default modifier registry. -/
def Grammar.from_map (input : List (String × List String)) : Except Err Grammar := do
  let m ← input.foldlM
    (fun acc (p : String × List String) => do
      let rules ← p.2.mapM parse_str
      pure (btreeInsert acc p.1 [rules]))
    []
  pure { map := m, default_rule := "origin", modifier_registry := get_default_modifiers }

/-- `N` successive `Grammar::push_rule` calls for one key, pushing the
given bodies in order (the composition quantified over in the pop
invariant). -/
def pushAllRules (g : Grammar) (k : String) (bodies : List String) : Grammar :=
  bodies.foldl (fun gg b => gg.push_rule k b) g

/-- `N` successive `Grammar::pop_rule` calls for one key. -/
def popRulesN (g : Grammar) (k : String) : Nat → Grammar
  | 0 => g
  | n + 1 => (popRulesN g k n).pop_rule k

/- ### Association-list lemmas for the stack operations

A Rust `BTreeMap` has pairwise-distinct keys; the embedding's invariant for
an entry list `m` is `(m.map Prod.fst).Nodup`.  The lemmas that depend on
it take it as a hypothesis. -/

theorem lookupA_eq_none_of_not_mem {α : Type} {m : List (String × α)} {k : String}
    (h : k ∉ m.map Prod.fst) : lookupA m k = none := by
  induction m with
  | nil => rfl
  | cons hd t ih =>
    obtain ⟨k', v⟩ := hd
    simp only [List.map_cons, List.mem_cons] at h
    push_neg at h
    have hne : k' ≠ k := fun hh => h.1 hh.symm
    simp [lookupA, hne, ih h.2]

theorem lookupA_pushA (m : List (String × RuleStack)) (k : String) (f : List Rule) :
    lookupA (pushA f m k) k = some ((lookupA m k).getD [] ++ [f]) := by
  induction m with
  | nil => simp [pushA, lookupA]
  | cons hd t ih =>
    obtain ⟨k', s⟩ := hd
    by_cases h : k' = k
    · subst h; simp [pushA, lookupA]
    · simp [pushA, lookupA, h, ih]

theorem lookupA_pushA_ne (m : List (String × RuleStack)) (k j : String) (f : List Rule)
    (h : j ≠ k) : lookupA (pushA f m k) j = lookupA m j := by
  induction m with
  | nil => simp [pushA, lookupA, Ne.symm h]
  | cons hd t ih =>
    obtain ⟨k', s⟩ := hd
    by_cases hk : k' = k
    · subst hk
      have hkj : ¬ k' = j := fun hh => h (hh ▸ rfl)
      simp [pushA, lookupA, hkj]
    · by_cases hj : k' = j
      · simp [pushA, lookupA, hk, hj, h]
      · simp [pushA, lookupA, hk, hj, ih]

theorem keys_pushA (m : List (String × RuleStack)) (k : String) (f : List Rule) :
    (pushA f m k).map Prod.fst =
      if k ∈ m.map Prod.fst then m.map Prod.fst else m.map Prod.fst ++ [k] := by
  induction m with
  | nil => simp [pushA]
  | cons hd t ih =>
    obtain ⟨k', s⟩ := hd
    by_cases h : k' = k
    · subst h; simp [pushA]
    · have h' : ¬ k = k' := fun hh => h hh.symm
      by_cases hmem : k ∈ t.map Prod.fst <;>
        simp [pushA, h, h', hmem, ih]

theorem nodup_pushA {m : List (String × RuleStack)} (k : String) (f : List Rule)
    (h : (m.map Prod.fst).Nodup) : ((pushA f m k).map Prod.fst).Nodup := by
  rw [keys_pushA]
  by_cases hmem : k ∈ m.map Prod.fst
  · rw [if_pos hmem]; exact h
  · rw [if_neg hmem]
    refine List.Nodup.append h (List.nodup_singleton k) ?_
    intro a ha hak
    rw [List.mem_singleton] at hak
    exact hmem (hak ▸ ha)

theorem lookupA_popA (m : List (String × RuleStack)) (k : String)
    (hnd : (m.map Prod.fst).Nodup) :
    lookupA (popA m k) k =
      match lookupA m k with
      | none => none
      | some s => if s.length < 2 then none else some s.dropLast := by
  induction m with
  | nil => simp [popA, lookupA]
  | cons hd t ih =>
    obtain ⟨k', s⟩ := hd
    simp only [List.map_cons, List.nodup_cons] at hnd
    by_cases h : k' = k
    · subst h
      by_cases hlen : s.length < 2
      · simp [popA, lookupA, hlen,
          lookupA_eq_none_of_not_mem (m := t) (k := k') hnd.1]
      · simp [popA, lookupA, hlen]
    · simp [popA, lookupA, h, ih hnd.2]

theorem keys_popA (m : List (String × RuleStack)) (k : String) :
    ∀ j, j ∈ (popA m k).map Prod.fst → j ∈ m.map Prod.fst := by
  induction m with
  | nil => intro j hj; simpa [popA] using hj
  | cons hd t ih =>
    obtain ⟨k', s⟩ := hd
    intro j hj
    by_cases h : k' = k
    · subst h
      by_cases hlen : s.length < 2
      · simp only [popA, if_pos rfl, if_pos hlen] at hj
        simp only [List.map_cons]
        exact List.mem_cons_of_mem _ hj
      · simp only [popA, if_pos rfl, if_neg hlen, List.map_cons] at hj
        simpa using hj
    · simp only [popA, if_neg h, List.map_cons] at hj
      simp only [List.map_cons]
      rcases List.mem_cons.1 hj with h1 | h2
      · exact List.mem_cons.2 (Or.inl h1)
      · exact List.mem_cons_of_mem _ (ih j h2)

theorem nodup_popA {m : List (String × RuleStack)} (k : String)
    (h : (m.map Prod.fst).Nodup) : ((popA m k).map Prod.fst).Nodup := by
  induction m with
  | nil => simpa [popA] using h
  | cons hd t ih =>
    obtain ⟨k', s⟩ := hd
    simp only [List.map_cons, List.nodup_cons] at h
    by_cases hk : k' = k
    · subst hk
      by_cases hlen : s.length < 2
      · simpa [popA, hlen] using h.2
      · simpa [popA, hlen] using h
    · have hrw : popA ((k', s) :: t) k = (k', s) :: popA t k := by simp [popA, hk]
      rw [hrw, List.map_cons, List.nodup_cons]
      exact ⟨fun hmem => h.1 (keys_popA t k k' hmem), ih h.2⟩

/-!
## Theorems about the embedded program
-/

theorem string_append_nil (s : String) : s ++ "" = s := by
  cases s with
  | mk d => show String.mk (d ++ []) = String.mk d; rw [List.append_nil]

theorem charOfNat_toNat_of_le (n : Nat) (h1 : 65 ≤ n) (h2 : n ≤ 90) :
    (Char.ofNat n).toNat = n := by
  unfold Char.ofNat
  rw [dif_pos (Or.inl (by omega))]
  simp [Char.ofNatAux, Char.toNat, UInt32.toNat, BitVec.toNat_ofNatLt]

/-- Every character's uppercase expansion is non-empty and starts with a
character that is its own uppercase expansion. -/
theorem charToUppercase_expand (c : Char) :
    ∃ d t, charToUppercase c = d :: t ∧ charToUppercase d = [d] := by
  by_cases hss : c = 'ß'
  · subst hss
    refine ⟨'S', ['S'], by decide, by decide⟩
  · by_cases hlow : 97 ≤ c.toNat ∧ c.toNat ≤ 122
    · refine ⟨Char.ofNat (c.toNat - 32), [], ?_, ?_⟩
      · simp [charToUppercase, hss, hlow]
      · have hto : (Char.ofNat (c.toNat - 32)).toNat = c.toNat - 32 :=
          charOfNat_toNat_of_le _ (by omega) (by omega)
        have hne : Char.ofNat (c.toNat - 32) ≠ 'ß' := by
          intro he
          have h2 := congrArg Char.toNat he
          rw [hto] at h2
          have h223 : ('ß').toNat = 223 := by decide
          rw [h223] at h2
          omega
        have hnl : ¬(97 ≤ (Char.ofNat (c.toNat - 32)).toNat ∧
            (Char.ofNat (c.toNat - 32)).toNat ≤ 122) := by
          rw [hto]; omega
        simp [charToUppercase, hne, hnl]
    · exact ⟨c, [], by simp [charToUppercase, hss, hlow], by simp [charToUppercase, hss, hlow]⟩

theorem capitalizeMod_idem (x : String) :
    capitalizeMod (capitalizeMod x) = capitalizeMod x := by
  cases x with
  | mk d =>
    cases d with
    | nil => rfl
    | cons c r =>
      obtain ⟨d0, t0, he, hf⟩ := charToUppercase_expand c
      have h1 : capitalizeMod (String.mk (c :: r)) = String.mk (d0 :: (t0 ++ r)) := by
        show String.mk (charToUppercase c ++ r) = _
        rw [he]
        rfl
      rw [h1]
      show String.mk (charToUppercase d0 ++ (t0 ++ r)) = _
      rw [hf]
      rfl

theorem commaMod_idem (x : String) : commaMod (commaMod x) = commaMod x := by
  by_cases h : (endsWithChar x ',' || endsWithChar x '.' ||
      endsWithChar x '!' || endsWithChar x '?') = true
  · have hx : commaMod x = x := by rw [commaMod, if_pos h]
    simp only [hx]
  · have hx : commaMod x = x ++ "," := by rw [commaMod, if_neg h]
    rw [hx]
    have he : endsWithChar (x ++ ",") ',' = true := by
      show ((x ++ ",").data.getLast? == some ',') = true
      rw [String.data_append]
      show ((x.data ++ [',']).getLast? == some ',') = true
      rw [List.getLast?_concat]
      rfl
    have hcond : (endsWithChar (x ++ ",") ',' || endsWithChar (x ++ ",") '.' ||
        endsWithChar (x ++ ",") '!' || endsWithChar (x ++ ",") '?') = true := by
      rw [he]; simp
    rw [commaMod, if_pos hcond]

/-- C7: for every string `x`, the built-in modifiers satisfy
`inQuotes(inQuotes(x)) = "\"" ++ inQuotes(x) ++ "\""`,
`comma(comma(x)) = comma(x)`, and
`capitalize(capitalize(x)) = capitalize(x)`. -/
theorem c7_modifier_idempotence (x : String) :
    inQuotesMod (inQuotesMod x) = "\"" ++ inQuotesMod x ++ "\"" ∧
    commaMod (commaMod x) = commaMod x ∧
    capitalizeMod (capitalizeMod x) = capitalizeMod x :=
  ⟨rfl, commaMod_idem x, capitalizeMod_idem x⟩

/-- C6: evaluating the embedded `ed` modifier at the failing input
`"naïve"`.  The first word's final character is `e`, so the claim (and
spec section 4.2) require `"d"` to be appended, giving `"naïved"`; but
`get_neg` computes the character offset from the UTF-8 byte length (6,
since `ï` is two bytes) rather than the character count (5), so
`chars().nth(5)` returns `None` and the default branch appends `"ed"`,
producing `"naïveed"`. -/
theorem c6_ed_first_word_bytelen :
    edMod "naïve" = "naïveed" ∧ "naïveed" ≠ "naïved" := by
  constructor
  · rfl
  · decide

/-- C9, counterexample: parsing the empty string succeeds, but the
resulting rule's node list is `[Text("")]` — the single empty text node
produced by the `rest_s` fallback of `text_as_node` before the loop's
length check — not the empty list the claim states. -/
theorem c9_counterexample :
    parse_str "" = Except.ok (Rule.mk [Node.text ""]) ∧
    Rule.mk [Node.text ""] ≠ Rule.mk [] := by
  constructor
  · rfl
  · intro h
    injection h with h'
    exact List.noConfusion h'

/-- C9, amended: parsing the empty string succeeds and yields the rule
whose node list is the single empty text node `[Text("")]`, and flattening
that rule over any grammar, overrides map and random source yields the
empty string. -/
theorem c9_empty_input_parse (g : Grammar) (ov : Ov) (rng : RngState) (fuel : Nat) :
    parse_str "" = Except.ok (Rule.mk [Node.text ""]) ∧
    Rule.flattenF (fuel + 1) g (Rule.mk [Node.text ""]) ov rng = FRes.val "" ov rng :=
  ⟨rfl, rfl⟩

/-- C10: `Grammar::from_map` accepts a key bound to an empty rule list,
and `execute` on that key returns neither a value nor an `Error`: the
stack's sole frame holds zero alternatives, so `choose(rng)` yields `None`
and the source's `.unwrap()` panics (the embedded `Res.panic`). -/
theorem c10_empty_alternatives_panic (seq : Nat → Nat) (i fuel : Nat) :
    ∃ G, Grammar.from_map [("k", ([] : List String))] = Except.ok G ∧
      Grammar.execute fuel G "k" ⟨seq, i⟩ = Res.panic G ⟨seq, i⟩ := by
  refine ⟨_, rfl, rfl⟩

/-- C2: for every grammar, fuel and random source, `flatten` leaves the
caller's grammar — its symbol-to-rule-stack map, default key and modifier
table — unchanged (the `&self` receiver; mutation happens only on the
private clone, which is discarded), and its result is exactly the
surviving part of executing the default key. -/
theorem c2_flatten_preserves_grammar (fuel : Nat) (g : Grammar) (rng : RngState) :
    (Grammar.flatten fuel g rng).2.map = g.map ∧
    (Grammar.flatten fuel g rng).2.default_rule = g.default_rule ∧
    (Grammar.flatten fuel g rng).2.modifier_registry = g.modifier_registry ∧
    (Grammar.flatten fuel g rng).1 =
      ((Grammar.execute fuel g g.default_rule rng).outcome,
       (Grammar.execute fuel g g.default_rule rng).rngOf) :=
  ⟨rfl, rfl, rfl, rfl⟩

/-- C3: during tag expansion, an action whose rule is the single node
`Text("POP")` (and whose label, like every action in the `BTreeMap` of
actions, is present) pops the top frame of the label's rule stack via
`Grammar::pop_rule` instead of pushing anything; when the popped stack
held fewer than two frames the key is removed entirely, so a later lookup
of that key fails, and otherwise exactly the top frame is dropped. -/
theorem c3_pop_action (recur : Rule → Grammar → RngState → Res String)
    (label : String) (rest : List (String × Rule)) (g : Grammar) (rng : RngState) :
    execActionsWith recur ((label, Rule.mk [Node.text "POP"]) :: rest) g rng =
      execActionsWith recur rest (g.pop_rule label) rng ∧
    (∀ (g' : Grammar) (k : String) (s : RuleStack),
      (g'.map.map Prod.fst).Nodup →
      lookupA g'.map k = some s → s.length < 2 →
      lookupA (g'.pop_rule k).map k = none) ∧
    (∀ (g' : Grammar) (k : String) (s : RuleStack),
      (g'.map.map Prod.fst).Nodup →
      lookupA g'.map k = some s → 2 ≤ s.length →
      lookupA (g'.pop_rule k).map k = some s.dropLast) := by
  refine ⟨rfl, ?_, ?_⟩
  · intro g' k s hnd hl hlen
    have h2 := lookupA_popA g'.map k hnd
    rw [hl] at h2
    simpa [Grammar.pop_rule, hlen] using h2
  · intro g' k s hnd hl hlen
    have h2 := lookupA_popA g'.map k hnd
    rw [hl] at h2
    have hnlt : ¬ s.length < 2 := by omega
    simpa [Grammar.pop_rule, hnlt] using h2

/-- Witness for `c3_pop_action` at a concrete one-frame grammar. -/
theorem c3_pop_action_witness :
    (execActionsWith (fun _ gg rng => Res.fuelOut gg rng)
        [("foo", Rule.mk [Node.text "POP"])]
        (⟨[("foo", [[Rule.mk [Node.text "bar"]]])], "origin", []⟩ : Grammar)
        ⟨fun _ => 0, 0⟩ =
      execActionsWith (fun _ gg rng => Res.fuelOut gg rng) []
        ((⟨[("foo", [[Rule.mk [Node.text "bar"]]])], "origin", []⟩ : Grammar).pop_rule "foo")
        ⟨fun _ => 0, 0⟩) ∧
    lookupA
      (((⟨[("foo", [[Rule.mk [Node.text "bar"]]])], "origin", []⟩ : Grammar).pop_rule
        "foo").map) "foo" = none :=
  ⟨(c3_pop_action (fun _ gg rng => Res.fuelOut gg rng) "foo" []
      (⟨[("foo", [[Rule.mk [Node.text "bar"]]])], "origin", []⟩ : Grammar)
      ⟨fun _ => 0, 0⟩).1,
   (c3_pop_action (fun _ gg rng => Res.fuelOut gg rng) "foo" []
      (⟨[("foo", [[Rule.mk [Node.text "bar"]]])], "origin", []⟩ : Grammar)
      ⟨fun _ => 0, 0⟩).2.1
      (⟨[("foo", [[Rule.mk [Node.text "bar"]]])], "origin", []⟩ : Grammar)
      "foo" [[Rule.mk [Node.text "bar"]]] (by simp) rfl (by decide)⟩

theorem nodup_pushAllRules (bodies : List String) (g : Grammar) (k : String)
    (h : (g.map.map Prod.fst).Nodup) :
    ((pushAllRules g k bodies).map.map Prod.fst).Nodup := by
  induction bodies generalizing g with
  | nil => exact h
  | cons b rest ih =>
    exact ih (g.push_rule k b) (nodup_pushA k _ h)

theorem nodup_popRulesN (n : Nat) (g : Grammar) (k : String)
    (h : (g.map.map Prod.fst).Nodup) :
    ((popRulesN g k n).map.map Prod.fst).Nodup := by
  induction n with
  | zero => exact h
  | succ m ih => exact nodup_popA k ih

/-- C8: for every grammar whose map satisfies the `BTreeMap` invariants
(distinct keys; a present key has a non-empty frame stack), any number of
`push_rule` calls for a key followed by exactly as many `pop_rule` calls
restores the grammar's stack for that key, the absent-before/absent-after
case included. -/
theorem c8_push_pop_invariant (g : Grammar) (k : String) (bodies : List String)
    (hnd : (g.map.map Prod.fst).Nodup)
    (hwf : lookupA g.map k = none ∨ ∃ s, lookupA g.map k = some s ∧ s ≠ []) :
    lookupA (popRulesN (pushAllRules g k bodies) k bodies.length).map k =
      lookupA g.map k := by
  induction bodies generalizing g with
  | nil => rfl
  | cons b rest ih =>
    have hg1nodup : (((g.push_rule k b).map).map Prod.fst).Nodup := nodup_pushA k _ hnd
    have hg1look : lookupA (g.push_rule k b).map k =
        some ((lookupA g.map k).getD [] ++ [[Rule.mk [Node.text b]]]) :=
      lookupA_pushA g.map k _
    have hne : (lookupA g.map k).getD [] ++ [[Rule.mk [Node.text b]]] ≠ [] := by simp
    have ihg1 := ih (g.push_rule k b) hg1nodup (Or.inr ⟨_, hg1look, hne⟩)
    have hYnodup :
        (((popRulesN (pushAllRules (g.push_rule k b) k rest) k rest.length).map).map
          Prod.fst).Nodup :=
      nodup_popRulesN rest.length _ k (nodup_pushAllRules rest (g.push_rule k b) k hg1nodup)
    have hpop := lookupA_popA
      (popRulesN (pushAllRules (g.push_rule k b) k rest) k rest.length).map k hYnodup
    rw [ihg1, hg1look] at hpop
    show lookupA
      (((popRulesN (pushAllRules (g.push_rule k b) k rest) k rest.length).pop_rule k).map)
      k = lookupA g.map k
    rcases hwf with hnone | ⟨s, hs, hsne⟩
    · rw [hnone] at hpop
      rw [hnone]
      simpa [Grammar.pop_rule] using hpop
    · rw [hs] at hpop
      have hpos : 0 < s.length := List.length_pos.2 hsne
      have hlen : ¬ (s.length + 1 < 2) := by omega
      rw [hs]
      simpa [Grammar.pop_rule, List.length_append, hlen, List.dropLast_concat] using hpop

/-- Witness for `c8_push_pop_invariant`: two pushes and two pops on an
initially absent key leave the key absent. -/
theorem c8_push_pop_invariant_witness :
    lookupA
      (popRulesN (pushAllRules (⟨[], "origin", []⟩ : Grammar) "k" ["x", "y"]) "k"
        (["x", "y"] : List String).length).map "k" =
      lookupA (⟨[], "origin", []⟩ : Grammar).map "k" :=
  c8_push_pop_invariant (⟨[], "origin", []⟩ : Grammar) "k" ["x", "y"]
    (by simp) (Or.inl rfl)

/-- C5, counterexample: a tag whose key is absent at resolution time does
return the `MissingKeyError` variant, but its payload is the message
`"Could not find key b"` built by `Tag::get_rule`
(src/tag.rs lines 40-43), not the bare missing key `"b"` that
`Grammar::execute` uses and the claim states. -/
theorem c5_counterexample :
    Tag.get_ruleW (fun _ ov rng => FRes.fuelOut ov rng)
        (⟨[("a", [[Rule.mk [Node.text "b"]]])], "origin", []⟩ : Grammar)
        (Tag.mk "b" [] []) [] ⟨fun _ => 0, 0⟩ =
      FRes.err (.missingKeyError "Could not find key b") [] ⟨fun _ => 0, 0⟩ ∧
    "Could not find key b" ≠ "b" := by
  constructor
  · rfl
  · decide

/-- C5, amended: a missing starting key makes `execute` (and `flatten`,
through its default key) return `MissingKeyError` carrying the key itself,
and a tag whose key is absent from both the overrides and the grammar at
resolution time makes `Tag::get_rule` return `MissingKeyError` carrying
the message `"Could not find key {key}"`; in each case no other error
variant and no other outcome occurs. -/
theorem c5_missing_key (fuel : Nat) (g : Grammar) (key : String) (rng : RngState)
    (recur : Rule → Ov → RngState → FRes String) (t : Tag) (ov : Ov) :
    (lookupA g.map key = none →
      Grammar.execute fuel g key rng = Res.err (.missingKeyError key) g rng) ∧
    (lookupA ov t.key = none → Grammar.get_rule g t.key = none →
      Tag.get_ruleW recur g t ov rng =
        FRes.err (.missingKeyError ("Could not find key " ++ t.key)) ov rng) ∧
    (lookupA g.map g.default_rule = none →
      Grammar.flatten fuel g rng =
        ((Outcome.err (.missingKeyError g.default_rule), rng), g)) := by
  refine ⟨?_, ?_, ?_⟩
  · intro h
    simp [Grammar.execute, h]
  · intro h1 h2
    simp [Tag.get_ruleW, h1, h2]
  · intro h
    have he : Grammar.execute fuel g g.default_rule rng =
        Res.err (.missingKeyError g.default_rule) g rng := by
      simp [Grammar.execute, h]
    simp [Grammar.flatten, he, Res.outcome, Res.rngOf]

/-- Witness for `c5_missing_key` on concrete empty grammars. -/
theorem c5_missing_key_witness :
    (Grammar.execute 3 (⟨[], "origin", []⟩ : Grammar) "missing" ⟨fun _ => 0, 0⟩ =
      Res.err (.missingKeyError "missing") (⟨[], "origin", []⟩ : Grammar) ⟨fun _ => 0, 0⟩) ∧
    (Tag.get_ruleW (fun _ ov rng => FRes.fuelOut ov rng) (⟨[], "origin", []⟩ : Grammar)
        (Tag.mk "b" [] []) [] ⟨fun _ => 0, 0⟩ =
      FRes.err (.missingKeyError ("Could not find key " ++ "b")) [] ⟨fun _ => 0, 0⟩) ∧
    (Grammar.flatten 3 (⟨[], "origin", []⟩ : Grammar) ⟨fun _ => 0, 0⟩ =
      ((Outcome.err (.missingKeyError "origin"), ⟨fun _ => 0, 0⟩),
        (⟨[], "origin", []⟩ : Grammar))) :=
  ⟨(c5_missing_key 3 (⟨[], "origin", []⟩ : Grammar) "missing" ⟨fun _ => 0, 0⟩
      (fun _ ov rng => FRes.fuelOut ov rng) (Tag.mk "b" [] []) []).1 rfl,
   (c5_missing_key 3 (⟨[], "origin", []⟩ : Grammar) "missing" ⟨fun _ => 0, 0⟩
      (fun _ ov rng => FRes.fuelOut ov rng) (Tag.mk "b" [] []) []).2.1 rfl rfl,
   (c5_missing_key 3 (⟨[], "origin", []⟩ : Grammar) "missing" ⟨fun _ => 0, 0⟩
      (fun _ ov rng => FRes.fuelOut ov rng) (Tag.mk "b" [] []) []).2.2 rfl⟩

theorem char_eq_of_toNat_eq {a b : Char} (h : a.toNat = b.toNat) : a = b := by
  have h2 := congrArg Char.ofNat h
  rwa [Char.ofNat_toNat, Char.ofNat_toNat] at h2

theorem charListLt_trans : ∀ (x y z : List Char),
    charListLt x y = true → charListLt y z = true → charListLt x z = true := by
  intro x
  induction x with
  | nil =>
    intro y z _ hyz
    cases z with
    | nil =>
      cases y with
      | nil => exact hyz
      | cons b bs => simp [charListLt] at hyz
    | cons c cs => simp [charListLt]
  | cons a as ih =>
    intro y z hxy hyz
    cases y with
    | nil => simp [charListLt] at hxy
    | cons b bs =>
      cases z with
      | nil => simp [charListLt] at hyz
      | cons c cs =>
        by_cases h1 : a.toNat < b.toNat
        · by_cases h2 : b.toNat < c.toNat
          · simp [charListLt, Nat.lt_trans h1 h2]
          · by_cases h3 : c.toNat < b.toNat
            · rw [show charListLt (b :: bs) (c :: cs) = false from by
                simp [charListLt, h2, h3]] at hyz
              exact absurd hyz (by simp)
            · simp [charListLt, show a.toNat < c.toNat by omega]
        · by_cases h4 : b.toNat < a.toNat
          · rw [show charListLt (a :: as) (b :: bs) = false from by
              simp [charListLt, h1, h4]] at hxy
            exact absurd hxy (by simp)
          · by_cases h2 : b.toNat < c.toNat
            · simp [charListLt, show a.toNat < c.toNat by omega]
            · by_cases h3 : c.toNat < b.toNat
              · rw [show charListLt (b :: bs) (c :: cs) = false from by
                  simp [charListLt, h2, h3]] at hyz
                exact absurd hyz (by simp)
              · have hxy2 : charListLt as bs = true := by
                  rw [show charListLt (a :: as) (b :: bs) = charListLt as bs from by
                    simp [charListLt, h1, h4]] at hxy
                  exact hxy
                have hyz2 : charListLt bs cs = true := by
                  rw [show charListLt (b :: bs) (c :: cs) = charListLt bs cs from by
                    simp [charListLt, h2, h3]] at hyz
                  exact hyz
                rw [show charListLt (a :: as) (c :: cs) = charListLt as cs from by
                  simp [charListLt, show ¬ a.toNat < c.toNat by omega,
                    show ¬ c.toNat < a.toNat by omega]]
                exact ih bs cs hxy2 hyz2

theorem charListLt_or : ∀ (x y : List Char),
    x = y ∨ charListLt x y = true ∨ charListLt y x = true := by
  intro x
  induction x with
  | nil =>
    intro y
    cases y with
    | nil => exact Or.inl rfl
    | cons b bs => exact Or.inr (Or.inl (by simp [charListLt]))
  | cons a as ih =>
    intro y
    cases y with
    | nil => exact Or.inr (Or.inr (by simp [charListLt]))
    | cons b bs =>
      by_cases h1 : a.toNat < b.toNat
      · exact Or.inr (Or.inl (by simp [charListLt, h1]))
      · by_cases h2 : b.toNat < a.toNat
        · exact Or.inr (Or.inr (by simp [charListLt, h2]))
        · have hab : a = b := char_eq_of_toNat_eq (by omega)
          subst hab
          rcases ih bs with h3 | h4 | h5
          · exact Or.inl (by rw [h3])
          · exact Or.inr (Or.inl (by simp [charListLt, h1, h4]))
          · exact Or.inr (Or.inr (by simp [charListLt, h1, h5]))

theorem strLt_trans {a b c : String} (h1 : strLt a b = true) (h2 : strLt b c = true) :
    strLt a c = true :=
  charListLt_trans a.data b.data c.data h1 h2

theorem strLt_or (a b : String) : a = b ∨ strLt a b = true ∨ strLt b a = true := by
  rcases charListLt_or a.data b.data with h1 | h2 | h3
  · left
    cases a with
    | mk da =>
      cases b with
      | mk db => exact congrArg String.mk h1
  · exact Or.inr (Or.inl h2)
  · exact Or.inr (Or.inr h3)

theorem lookupA_btreeInsert {α : Type} (m : List (String × α)) (a : String) (b : α)
    (k : String) :
    lookupA (btreeInsert m a b) k = if a = k then some b else lookupA m k := by
  induction m with
  | nil => simp [btreeInsert, lookupA]
  | cons hd t ih =>
    obtain ⟨k', v'⟩ := hd
    by_cases hak : a = k'
    · subst hak
      by_cases hk : a = k
      · simp [btreeInsert, lookupA, hk]
      · simp [btreeInsert, lookupA, hk]
    · by_cases hlt : strLt a k' = true
      · simp [btreeInsert, lookupA, hak, hlt]
      · by_cases hk : k' = k
        · subst hk
          have hka : ¬ a = k' := hak
          simp [btreeInsert, lookupA, hak, hlt, hka]
        · simp [btreeInsert, lookupA, hak, hlt, hk, ih]

theorem keys_btreeInsert_mem {α : Type} (m : List (String × α)) (a : String) (b : α)
    (j : String) :
    j ∈ (btreeInsert m a b).map Prod.fst → j = a ∨ j ∈ m.map Prod.fst := by
  induction m with
  | nil =>
    intro hj
    rw [show btreeInsert ([] : List (String × α)) a b = [(a, b)] from rfl,
      List.map_cons, List.mem_cons] at hj
    rcases hj with h1 | h2
    · exact Or.inl h1
    · exact absurd h2 (List.not_mem_nil j)
  | cons hd t ih =>
    obtain ⟨k', v'⟩ := hd
    intro hj
    by_cases hak : a = k'
    · subst hak
      rw [show btreeInsert ((a, v') :: t) a b = (a, b) :: t from by simp [btreeInsert],
        List.map_cons, List.mem_cons] at hj
      rcases hj with h1 | h2
      · exact Or.inl h1
      · right; rw [List.map_cons, List.mem_cons]; exact Or.inr h2
    · by_cases hlt : strLt a k' = true
      · rw [show btreeInsert ((k', v') :: t) a b = (a, b) :: (k', v') :: t from by
          simp [btreeInsert, hak, hlt], List.map_cons, List.map_cons, List.mem_cons,
          List.mem_cons] at hj
        rcases hj with h1 | h2 | h3
        · exact Or.inl h1
        · right; rw [List.map_cons, List.mem_cons]; exact Or.inl h2
        · right; rw [List.map_cons, List.mem_cons]; exact Or.inr h3
      · rw [show btreeInsert ((k', v') :: t) a b = (k', v') :: btreeInsert t a b from by
          simp [btreeInsert, hak, hlt], List.map_cons, List.mem_cons] at hj
        rcases hj with h1 | h2
        · right; rw [List.map_cons, List.mem_cons]; exact Or.inl h1
        · rcases ih h2 with h3 | h4
          · exact Or.inl h3
          · right; rw [List.map_cons, List.mem_cons]; exact Or.inr h4

theorem pairwise_btreeInsert {α : Type} (m : List (String × α)) (a : String) (b : α)
    (h : (m.map Prod.fst).Pairwise (fun x y => strLt x y = true)) :
    ((btreeInsert m a b).map Prod.fst).Pairwise (fun x y => strLt x y = true) := by
  induction m with
  | nil => simp [btreeInsert]
  | cons hd t ih =>
    obtain ⟨k', v'⟩ := hd
    rw [List.map_cons, List.pairwise_cons] at h
    by_cases hak : a = k'
    · subst hak
      simp only [btreeInsert, if_pos rfl, List.map_cons]
      exact List.pairwise_cons.2 h
    · by_cases hlt : strLt a k' = true
      · simp only [btreeInsert, if_neg hak, if_pos hlt, List.map_cons]
        refine List.pairwise_cons.2 ⟨?_, List.pairwise_cons.2 h⟩
        intro j hj
        rcases List.mem_cons.1 hj with h1 | h2
        · exact h1 ▸ hlt
        · exact strLt_trans hlt (h.1 j h2)
      · have hgt : strLt k' a = true := by
          rcases strLt_or a k' with h1 | h2 | h3
          · exact absurd h1 hak
          · exact absurd h2 hlt
          · exact h3
        simp only [btreeInsert, if_neg hak, if_neg hlt, List.map_cons]
        refine List.pairwise_cons.2 ⟨?_, ih h.2⟩
        intro j hj
        rcases keys_btreeInsert_mem t a b j hj with h1 | h2
        · exact h1 ▸ hgt
        · exact h.1 j h2

theorem lookupA_foldl_btreeInsert {α : Type} (xs : List (String × α))
    (m : List (String × α)) (k : String) :
    lookupA (xs.foldl (fun acc p => btreeInsert acc p.1 p.2) m) k =
      match (xs.filter fun p => p.1 == k).getLast? with
      | some p => some p.2
      | none => lookupA m k := by
  induction xs generalizing m with
  | nil => rfl
  | cons hd rest ih =>
    obtain ⟨a, b⟩ := hd
    rw [List.foldl_cons]
    rw [ih (btreeInsert m a b)]
    by_cases hak : a = k
    · subst hak
      rw [List.filter_cons]
      simp only [beq_self_eq_true, if_pos]
      cases hfr : (rest.filter fun p => p.1 == a).getLast? with
      | some q => simp [List.getLast?_cons, hfr]
      | none =>
        rw [List.getLast?_eq_none_iff] at hfr
        simp [hfr, lookupA_btreeInsert]
    · rw [List.filter_cons]
      have hbeq : ((a, b).1 == k) = false := beq_false_of_ne hak
      simp only [hbeq, Bool.false_eq_true, if_neg, ite_false]
      cases hfr : (rest.filter fun p => p.1 == k).getLast? with
      | some q => simp [hfr]
      | none => simp [hfr, lookupA_btreeInsert, hak]

theorem pairwise_foldl_btreeInsert {α : Type} (xs : List (String × α))
    (m : List (String × α)) (h : (m.map Prod.fst).Pairwise (fun x y => strLt x y = true)) :
    (((xs.foldl (fun acc p => btreeInsert acc p.1 p.2) m)).map Prod.fst).Pairwise
      (fun x y => strLt x y = true) := by
  induction xs generalizing m with
  | nil => exact h
  | cons hd rest ih =>
    rw [List.foldl_cons]
    exact ih _ (pairwise_btreeInsert m hd.1 hd.2 h)

/-- C4, counterexample: the tag source `#[b:x][a:y]k#` writes the action
labeled `b` before the one labeled `a`, but the parsed tag stores (and the
expander therefore iterates) them in ascending label order `a`, `b` — not
writing order; and the tag source `#[a:x][a:y]k#` writes two actions with
the same label but the parsed tag keeps only the later one, so the first
written action is never executed.  Both refute the claim as stated. -/
theorem c4_counterexample :
    parse_tag "#[b:x][a:y]k#" =
      Except.ok
        (Tag.mk "k" [("a", Rule.mk [Node.text "y"]), ("b", Rule.mk [Node.text "x"])] []) ∧
    parse_tag "#[a:x][a:y]k#" =
      Except.ok (Tag.mk "k" [("a", Rule.mk [Node.text "y"])] []) ∧
    [("a", Rule.mk [Node.text "y"]), ("b", Rule.mk [Node.text "x"])] ≠
      [("b", Rule.mk [Node.text "x"]), ("a", Rule.mk [Node.text "y"])] := by
  refine ⟨rfl, rfl, ?_⟩
  intro h
  rw [List.cons.injEq, Prod.mk.injEq] at h
  exact absurd h.1.1 (by decide)

/-- C4, amended: a tag's actions are collected by the parser into a
`BTreeMap` keyed by label (src/parser.rs line 41), so for every written
action sequence the stored entry list is strictly sorted by label —
giving ascending-label execution order and at most one action per label —
and each label is bound to the value of the *last* action written with
that label (an earlier duplicate is discarded, executed zero times). -/
theorem c4_actions_are_a_btreemap (xs : List (String × Rule)) :
    ((btreeOfList xs).map Prod.fst).Pairwise (fun x y => strLt x y = true) ∧
    ∀ k, lookupA (btreeOfList xs) k =
      ((xs.filter fun p => p.1 == k).getLast?).map Prod.snd := by
  constructor
  · exact pairwise_foldl_btreeInsert xs [] (by simp)
  · intro k
    rw [show btreeOfList xs = xs.foldl (fun acc p => btreeInsert acc p.1 p.2) [] from rfl]
    rw [lookupA_foldl_btreeInsert]
    cases hfr : (xs.filter fun p => p.1 == k).getLast? with
    | some q => simp
    | none => simp [lookupA]

/-- C1: for every label `l`, pushed body `b` (not the POP sentinel), tag
key `tk` and its expansion `tv`, every random source and every sufficient
fuel, executing the key `"origin"` of the grammar
`{"origin": ["#[l:b]tk#"], tk: [tv]}` returns the expanded string `tv`
and persistently pushes the action's flattened body `b` onto the stack
for `l` in the caller's grammar, so that a subsequent `execute` of `l`
returns `b` rather than a `MissingKeyError`.  (The expander itself is the
spec-modelled `execRule`; `Grammar::execute`, `push_rule` and the grammar
state are embedded from src/grammar.rs.) -/
theorem c1_labeled_action_persists (l b tk tv : String) (f : Nat) (seq : Nat → Nat) (i : Nat)
    (hl1 : l ≠ "origin") (hl2 : l ≠ tk) (htk : tk ≠ "origin") (hb : b ≠ "POP") :
    Grammar.execute (f + 2)
        (⟨[("origin", [[Rule.mk [Node.tag (Tag.mk tk [(l, Rule.mk [Node.text b])] [])]]]),
           (tk, [[Rule.mk [Node.text tv]]])], "origin", get_default_modifiers⟩ : Grammar)
        "origin" ⟨seq, i⟩ =
      Res.val tv
        (⟨[("origin", [[Rule.mk [Node.tag (Tag.mk tk [(l, Rule.mk [Node.text b])] [])]]]),
           (tk, [[Rule.mk [Node.text tv]]]),
           (l, [[Rule.mk [Node.text b]]])], "origin", get_default_modifiers⟩ : Grammar)
        ⟨seq, i + 2⟩ ∧
    lookupA
        (⟨[("origin", [[Rule.mk [Node.tag (Tag.mk tk [(l, Rule.mk [Node.text b])] [])]]]),
           (tk, [[Rule.mk [Node.text tv]]]),
           (l, [[Rule.mk [Node.text b]]])], "origin", get_default_modifiers⟩ : Grammar).map
        l = some [[Rule.mk [Node.text b]]] ∧
    ∀ (f2 : Nat) (seq2 : Nat → Nat) (i2 : Nat),
      Grammar.execute (f2 + 1)
          (⟨[("origin", [[Rule.mk [Node.tag (Tag.mk tk [(l, Rule.mk [Node.text b])] [])]]]),
             (tk, [[Rule.mk [Node.text tv]]]),
             (l, [[Rule.mk [Node.text b]]])], "origin", get_default_modifiers⟩ : Grammar)
          l ⟨seq2, i2⟩ =
        Res.val b
          (⟨[("origin", [[Rule.mk [Node.tag (Tag.mk tk [(l, Rule.mk [Node.text b])] [])]]]),
             (tk, [[Rule.mk [Node.text tv]]]),
             (l, [[Rule.mk [Node.text b]]])], "origin", get_default_modifiers⟩ : Grammar)
          ⟨seq2, i2 + 1⟩ := by
  refine ⟨?_, ?_, ?_⟩
  · simp [Grammar.execute, lookupA, chooseL, execRule, execNodesWith, execTagWith,
      execActionsWith, isPopRule, Grammar.push_rule, Grammar.get_rule, pushA,
      Tag.apply_modifiers, Tag.actions, Tag.key, Tag.modifiers, Rule.nodes,
      Nat.mod_one, string_append_nil, Ne.symm hl1, Ne.symm hl2, Ne.symm htk,
      beq_false_of_ne hb]
  · simp [lookupA, Ne.symm hl1, Ne.symm hl2]
  · intro f2 seq2 i2
    simp [Grammar.execute, lookupA, chooseL, execRule, execNodesWith,
      Rule.nodes, Nat.mod_one, string_append_nil, Ne.symm hl1, Ne.symm hl2]

/-- Witness for `c1_labeled_action_persists` at the spec's own example
`execute({"origin":["#[foo:bar]baz#"],"baz":["baz"]}, "origin")`. -/
theorem c1_labeled_action_persists_witness :
    Grammar.execute 2
        (⟨[("origin",
            [[Rule.mk [Node.tag (Tag.mk "baz" [("foo", Rule.mk [Node.text "bar"])] [])]]]),
           ("baz", [[Rule.mk [Node.text "baz"]]])], "origin", get_default_modifiers⟩ : Grammar)
        "origin" ⟨fun _ => 0, 0⟩ =
      Res.val "baz"
        (⟨[("origin",
            [[Rule.mk [Node.tag (Tag.mk "baz" [("foo", Rule.mk [Node.text "bar"])] [])]]]),
           ("baz", [[Rule.mk [Node.text "baz"]]]),
           ("foo", [[Rule.mk [Node.text "bar"]]])], "origin", get_default_modifiers⟩ : Grammar)
        ⟨fun _ => 0, 2⟩ ∧
    lookupA
        (⟨[("origin",
            [[Rule.mk [Node.tag (Tag.mk "baz" [("foo", Rule.mk [Node.text "bar"])] [])]]]),
           ("baz", [[Rule.mk [Node.text "baz"]]]),
           ("foo", [[Rule.mk [Node.text "bar"]]])], "origin", get_default_modifiers⟩ : Grammar).map
        "foo" = some [[Rule.mk [Node.text "bar"]]] ∧
    ∀ (f2 : Nat) (seq2 : Nat → Nat) (i2 : Nat),
      Grammar.execute (f2 + 1)
          (⟨[("origin",
              [[Rule.mk [Node.tag (Tag.mk "baz" [("foo", Rule.mk [Node.text "bar"])] [])]]]),
             ("baz", [[Rule.mk [Node.text "baz"]]]),
             ("foo", [[Rule.mk [Node.text "bar"]]])], "origin",
            get_default_modifiers⟩ : Grammar)
          "foo" ⟨seq2, i2⟩ =
        Res.val "bar"
          (⟨[("origin",
              [[Rule.mk [Node.tag (Tag.mk "baz" [("foo", Rule.mk [Node.text "bar"])] [])]]]),
             ("baz", [[Rule.mk [Node.text "baz"]]]),
             ("foo", [[Rule.mk [Node.text "bar"]]])], "origin",
            get_default_modifiers⟩ : Grammar)
          ⟨seq2, i2 + 1⟩ :=
  c1_labeled_action_persists "foo" "bar" "baz" "baz" 0 (fun _ => 0) 0
    (by decide) (by decide) (by decide) (by decide)
